import Mathlib

/-
Verification of the tiered commitment tree (TCT) of this repository.

The development shallowly embeds the code of
  src/tct/src/internal/frontier/tier.rs   (frontier Tier)
  src/tct/src/internal/frontier/leaf.rs   (frontier Leaf)
  src/tct/src/internal/complete/tier.rs   (complete Tier)
  src/tct/src/storage/serialize.rs        (Serializer, to_writer)
  src/tct/src/storage/deserialize.rs      (from_reader)
into Lean.  Hashes and commitments are opaque 32-byte field elements in the
code; they are modelled as natural numbers, since no settled claim inspects
the algebraic structure of a hash.  Code of the repository that the claims
need but whose file is not among the sources (the generic frontier node
frontier/node.rs, the item frontier/item.rs, the reflected structure module
structure.rs, and the out-of-order initialization machinery) is modelled
from the specification; every such definition carries a doc comment
containing the words Modelled from the spec.
-/

mutual

/-- A complete (sealed) subtree of depth d: a complete leaf holds a
commitment, a complete internal node holds four children each present or a
stored hash (complete/tier.rs nests these eight deep; the node itself is
from the complete node module, whose shape section 4.3 of the spec gives). -/
inductive CTree : ℕ → Type where
  | leaf : ℕ → CTree 0
  | node : (d : ℕ) → CChild d → CChild d → CChild d → CChild d → CTree (d + 1)

/-- The Insert enum of the source applied to a complete subtree: a child
kept in memory or summarized by its stored hash. -/
inductive CChild : ℕ → Type where
  | keep : {d : ℕ} → CTree d → CChild d
  | hash : {d : ℕ} → ℕ → CChild d

end

/-- Whether a complete child is the bare-hash variant. -/
def CChild.isHash {d : ℕ} : CChild d → Bool
  | .keep _ => false
  | .hash _ => true

/-- The stored hash of a complete child, defaulting to 0 on the keep
variant (only consulted when all children are bare hashes). -/
def CChild.hashValueD {d : ℕ} : CChild d → ℕ
  | .keep _ => 0
  | .hash h => h

/-- The completed left siblings of a frontier node: the Three container of
the source, holding zero to three elements. -/
inductive Sibs (d : ℕ) : Type where
  | zero : Sibs d
  | one : CChild d → Sibs d
  | two : CChild d → CChild d → Sibs d
  | three : CChild d → CChild d → CChild d → Sibs d

/-- The number of occupied sibling slots. -/
def Sibs.length {d : ℕ} : Sibs d → ℕ
  | .zero => 0
  | .one _ => 1
  | .two _ _ => 2
  | .three _ _ _ => 3

/-- Pushing onto the Three container: fails exactly when it already holds
three elements, mirroring the push of the source container. -/
def Sibs.push {d : ℕ} : Sibs d → CChild d → Option (Sibs d)
  | .zero, c => some (.one c)
  | .one a, c => some (.two a c)
  | .two a b, c => some (.three a b c)
  | .three _ _ _, _ => none

/-- The sibling slots as a list, in order. -/
def Sibs.toList {d : ℕ} : Sibs d → List (CChild d)
  | .zero => []
  | .one a => [a]
  | .two a b => [a, b]
  | .three a b c => [a, b, c]

/-- The item stored in a frontier leaf: a kept commitment or only its hash,
mirroring the Insert of a commitment held by the frontier item type. -/
inductive ItemV : Type where
  | keep : ℕ → ItemV
  | hash : ℕ → ItemV

/-- Modelled from the spec: an opaque stand-in for the Poseidon node hash of
section 4.1; the settled claims never inspect hash values, only route them. -/
def hashNode (height a b c d : ℕ) : ℕ :=
  Nat.pair height (Nat.pair a (Nat.pair b (Nat.pair c d))) + 2

/-- Modelled from the spec: finalizing a frontier item (frontier/item.rs is
not among the sources): a kept commitment becomes a complete leaf, a bare
hash stays a bare hash. -/
def finalizeItem : ItemV → CChild 0
  | .keep c => .keep (CTree.leaf c)
  | .hash h => .hash h

/-- A frontier subtree of depth d.  The leaf constructor is the frontier
Leaf of frontier/leaf.rs holding a single item.  The node constructor is
Modelled from the spec, section 4.4 (frontier/node.rs is not among the
sources): an ordered container of at most three completed left siblings,
each present or a hash, and one focus which is another frontier. -/
inductive FTree : ℕ → Type where
  | leaf : ItemV → FTree 0
  | node : (d : ℕ) → Sibs d → FTree d → FTree (d + 1)

/-- Modelled from the spec: creating a new frontier containing one item
(the new of the Frontier trait); at each internal level the new focus has
no completed siblings. -/
def FTree.new : (d : ℕ) → ItemV → FTree d
  | 0, i => .leaf i
  | d + 1, i => .node d .zero (FTree.new d i)

/-- Fullness of a frontier.  The leaf case is frontier/leaf.rs is_full,
which always returns true.  The node case is Modelled from the spec: a
frontier node is full when its three sibling slots are occupied and its
focus is full. -/
def FTree.is_full : {d : ℕ} → FTree d → Bool
  | _, .leaf _ => true
  | _, .node _ sibs focus => decide (sibs.length = 3) && focus.is_full

/-- Finalizing a frontier into a complete subtree or a bare hash.  The leaf
case is frontier/leaf.rs finalize_owned.  The node case is Modelled from
the spec, section 4.4: finalize the focus; if it and all siblings are bare
hashes the node becomes the single node hash, otherwise a complete node
preserving present children, absent slots padded with the one hash. -/
def FTree.finalize_owned : {d : ℕ} → FTree d → CChild d
  | _, .leaf i => finalizeItem i
  | _, .node d sibs focus =>
    let cs := sibs.toList ++ [FTree.finalize_owned focus]
    if cs.all CChild.isHash then
      CChild.hash (hashNode (d + 1)
        (CChild.hashValueD (cs.getD 0 (.hash 1)))
        (CChild.hashValueD (cs.getD 1 (.hash 1)))
        (CChild.hashValueD (cs.getD 2 (.hash 1)))
        (CChild.hashValueD (cs.getD 3 (.hash 1))))
    else
      CChild.keep (CTree.node d (cs.getD 0 (.hash 1)) (cs.getD 1 (.hash 1))
        (cs.getD 2 (.hash 1)) (cs.getD 3 (.hash 1)))

/-- Insertion into a frontier.  The leaf case is frontier/leaf.rs
insert_owned: it always fails, returning Full carrying the offered item and
the finalized leaf.  The node case is Modelled from the spec, section 4.4:
delegate to the focus; when the focus is full and a sibling slot is free,
park the finalized focus there and open a fresh focus on the item;
otherwise propagate Full upward with the finalized node. -/
def FTree.insert_owned : {d : ℕ} → FTree d → ItemV →
    Except (ItemV × CChild d) (FTree d)
  | _, .leaf i, item => .error (item, FTree.finalize_owned (.leaf i))
  | _, .node d sibs focus, item =>
    match FTree.insert_owned focus item with
    | .ok focus2 => .ok (.node d sibs focus2)
    | .error (item2, complete2) =>
      match sibs.push complete2 with
      | some sibs2 => .ok (.node d sibs2 (FTree.new d item2))
      | none => .error (item2, FTree.finalize_owned (.node d sibs focus))

/-- Modelled from the spec: the reported position of a frontier (the
GetPosition trait; frontier/node.rs and frontier/item.rs are not among the
sources).  A leaf is occupied, so it reports none; a node reports the index
of the next insertion slot beneath it, or none when full. -/
def FTree.position : {d : ℕ} → FTree d → Option ℕ
  | _, .leaf _ => none
  | _, .node d sibs focus =>
    match FTree.position focus with
    | some p => some (sibs.length * 4 ^ d + p)
    | none =>
      if sibs.length + 1 < 4 then some ((sibs.length + 1) * 4 ^ d) else none

/-- The Inner enum of frontier/tier.rs: a tier is a frontier, a completed
tree with at least one witnessed child, or a bare hash. -/
inductive TierInner : Type where
  | frontier : FTree 8 → TierInner
  | complete : CTree 8 → TierInner
  | hash : ℕ → TierInner

/-- The frontier Tier of frontier/tier.rs, wrapping an eight-deep quad
tree. -/
structure Tier : Type where
  inner : TierInner

/-- Tier new of frontier/tier.rs: a tier holding its first element. -/
def Tier.new (item : ItemV) : Tier :=
  ⟨.frontier (FTree.new 8 item)⟩

/-- The outcome of Tier insert: success, failure returning the item and the
untouched tier, or the unreachable panic branch of the source (the
unwrap_or_else in frontier/tier.rs line 102). -/
inductive InsertResult : Type where
  | ok : Tier → InsertResult
  | err : ItemV → Tier → InsertResult
  | panicked : InsertResult

/-- Tier insert of frontier/tier.rs (insert and insert_owned fused, as the
public insert immediately puts the result back): a completed or hashed tier
returns the item; a full frontier returns the item without trying, so there
is no implicit finalization; otherwise the insertion is delegated and must
succeed, the panic branch standing for the source panic. -/
def Tier.insert (t : Tier) (item : ItemV) : InsertResult :=
  match t.inner with
  | .complete c => .err item ⟨.complete c⟩
  | .hash h => .err item ⟨.hash h⟩
  | .frontier f =>
    if f.is_full then .err item ⟨.frontier f⟩
    else
      match f.insert_owned item with
      | .ok f2 => .ok ⟨.frontier f2⟩
      | .error _ => .panicked

/-- Tier is_full of frontier/tier.rs: a frontier delegates, completed and
hashed tiers are full. -/
def Tier.is_full (t : Tier) : Bool :=
  match t.inner with
  | .frontier f => f.is_full
  | .complete _ => true
  | .hash _ => true

/-- Tier is_finalized of frontier/tier.rs. -/
def Tier.is_finalized (t : Tier) : Bool :=
  match t.inner with
  | .frontier _ => false
  | .complete _ => true
  | .hash _ => true

/-- Tier finalize of frontier/tier.rs: returns whether the tier was already
finalized, and materializes a frontier into a completed tree or a bare
hash. -/
def Tier.finalize (t : Tier) : Bool × Tier :=
  match t.inner with
  | .frontier f =>
    (false,
      match FTree.finalize_owned f with
      | .hash h => ⟨.hash h⟩
      | .keep c => ⟨.complete c⟩)
  | .complete c => (true, ⟨.complete c⟩)
  | .hash h => (true, ⟨.hash h⟩)

/-- Tier position of frontier/tier.rs: a frontier delegates, completed and
hashed tiers report none. -/
def Tier.position (t : Tier) : Option ℕ :=
  match t.inner with
  | .frontier f => f.position
  | .complete _ => none
  | .hash _ => none

/-- The shape invariant of a frontier that has absorbed k items by repeated
insertion: the focus also satisfies it, and its count never exceeds the
capacity of its depth. -/
inductive Compact : (d : ℕ) → FTree d → ℕ → Prop where
  | leaf (i : ItemV) : Compact 0 (.leaf i) 1
  | node {d : ℕ} (sibs : Sibs d) (focus : FTree d) (k : ℕ) :
      Compact d focus k → k ≤ 4 ^ d →
      Compact (d + 1) (.node d sibs focus) (sibs.length * 4 ^ d + k)

/-- One step of the capacity experiment on a tier: perform the insertion
and keep the resulting tier (on failure the tier is returned unchanged by
insert itself). -/
def tierStep (item : ItemV) (t : Tier) : Tier :=
  match Tier.insert t item with
  | .ok t2 => t2
  | .err _ t2 => t2
  | .panicked => t

/-- The tier obtained from Tier new on the first item of the sequence
followed by k further insertions of the following items, with no sealing
call in between. -/
def tierIter (f : ℕ → ItemV) : ℕ → Tier
  | 0 => Tier.new (f 0)
  | k + 1 => tierStep (f (k + 1)) (tierIter f k)

/-- Modelled from the spec: the place of a node as reported by the
reflected structure module (structure.rs is not among the sources): on the
frontier, the rightmost path, or complete. -/
inductive Place : Type where
  | frontier
  | complete
deriving DecidableEq

/-- Modelled from the spec: the kind of a reflected node: a leaf with an
optional witnessed commitment, or an internal node. -/
inductive SKind : Type where
  | leaf : Option ℕ → SKind
  | internal : SKind
deriving DecidableEq

mutual

/-- Modelled from the spec: a reflected node of the live structure, as the
structure module presents it to the serializer: its position (index of its
leftmost leaf), height, place, kind, cached hash if one is memoized, the
hash its hash method returns, its forgotten stamp, and its children in
order. -/
inductive SNode : Type where
  | mk (position height : ℕ) (place : Place) (kind : SKind)
      (cachedHash : Option ℕ) (hashVal forgottenStamp : ℕ)
      (children : SNodeList)

/-- The children of a reflected node. -/
inductive SNodeList : Type where
  | nil : SNodeList
  | cons : SNode → SNodeList → SNodeList

end

def SNode.position : SNode → ℕ
  | .mk p _ _ _ _ _ _ _ => p

def SNode.height : SNode → ℕ
  | .mk _ h _ _ _ _ _ _ => h

def SNode.place : SNode → Place
  | .mk _ _ pl _ _ _ _ _ => pl

def SNode.kind : SNode → SKind
  | .mk _ _ _ k _ _ _ _ => k

def SNode.cachedHash : SNode → Option ℕ
  | .mk _ _ _ _ ch _ _ _ => ch

def SNode.hashVal : SNode → ℕ
  | .mk _ _ _ _ _ hv _ _ => hv

def SNode.forgottenStamp : SNode → ℕ
  | .mk _ _ _ _ _ _ fg _ => fg

def SNodeList.toList : SNodeList → List SNode
  | .nil => []
  | .cons c cs => c :: cs.toList

def SNode.childList : SNode → List SNode
  | .mk _ _ _ _ _ _ _ children => children.toList

/-- The Options of serialize.rs: whether internal complete hashes are kept
in the output (true by default). -/
structure Options : Type where
  keep_internal : Bool

/-- The Serializer of serialize.rs: options, the minimum position already
present in storage (none meaning the tree position ran past every
position), and the last forgotten version already reflected in storage. -/
structure Serializer : Type where
  options : Options
  minimum_position : Option ℕ
  last_forgotten : ℕ

/-- The maximum value of an unsigned 64-bit integer, used by serialize.rs
as the sentinel replacing an absent minimum position. -/
def u64MAX : ℕ := 2 ^ 64 - 1

/-- The minimum-position threshold the streams compare against: the
minimum position, or the u64 maximum when it is absent. -/
def Serializer.minPosVal (s : Serializer) : ℕ :=
  s.minimum_position.getD u64MAX

/-- should_keep_hash of serialize.rs lines 30 to 48: a hash is kept when it
is essential (not recalculable: no children and not a witnessed leaf) or
when the node is complete and the keep-internal option is on. -/
def Serializer.should_keep_hash (s : Serializer) (n : SNode)
    (children : ℕ) : Bool :=
  let is_recalculable :=
    decide (0 < children) ||
      (match n.kind with
       | .leaf (some _) => true
       | _ => false)
  let is_essential := !is_recalculable
  let is_frontier := decide (n.place = Place.frontier)
  let is_complete := !is_frontier
  is_essential || (is_complete && s.options.keep_internal)

/-- Modelled from the spec: whether the position range spanned by a node,
the interval from its position to its position plus 4 to the height,
intersected with the space of valid positions below 4 to the 24, contains
a given position (the range method of structure.rs, which is not among the
sources; the spec gives this range formula in section 4.8). -/
def SNode.rangeContains (n : SNode) (m : ℕ) : Bool :=
  decide (n.position ≤ m) &&
    decide (m < min (n.position + 4 ^ n.height) (4 ^ 24))

/-- should_keep_children of serialize.rs lines 50 to 59: descend into the
children only when a minimum position exists and lies inside the range of
the node; with no minimum position, serialization of internals is aborted
entirely. -/
def Serializer.should_keep_children (s : Serializer) (n : SNode) : Bool :=
  match s.minimum_position with
  | some m => n.rangeContains m
  | none => false

mutual

/-- hashes_stream of serialize.rs lines 101 to 141 (the inner function
hashes_inner), as the list of triples the stream yields in order: emit the
node itself when its position reaches the minimum-position threshold, its
hash should be kept, and a cached hash is present; then traverse the
children when should_keep_children allows. -/
def hashes_inner (s : Serializer) : SNode → List (ℕ × ℕ × ℕ)
  | .mk pos ht pl kd ch hv fg children =>
    (if s.minPosVal ≤ pos then
      if s.should_keep_hash (.mk pos ht pl kd ch hv fg children)
          children.toList.length then
        match ch with
        | some hsh => [(pos, ht, hsh)]
        | none => []
      else []
    else [])
    ++ (if s.should_keep_children (.mk pos ht pl kd ch hv fg children) then
        hashes_list s children
      else [])

/-- The concatenation of the hash streams of a list of children, in
order. -/
def hashes_list (s : Serializer) : SNodeList → List (ℕ × ℕ × ℕ)
  | .nil => []
  | .cons c cs => hashes_inner s c ++ hashes_list s cs

end

mutual

/-- forgotten_stream of serialize.rs lines 207 to 252 (the inner function
forgotten_inner), as the list of triples the stream yields in order: only
nodes below the minimum position whose stamp exceeds the last forgotten
version are considered; a childless such node is reported with its
position, height and hash, and a node with children is not itself reported,
its children being walked instead. -/
def forgotten_inner (s : Serializer) : SNode → List (ℕ × ℕ × ℕ)
  | .mk pos ht pl kd ch hv fg children =>
    if pos < s.minPosVal ∧ s.last_forgotten < fg then
      match children with
      | .nil => [(pos, ht, hv)]
      | .cons c cs => forgotten_list s (.cons c cs)
    else []

/-- The concatenation of the forgotten streams of a list of children, in
order. -/
def forgotten_list (s : Serializer) : SNodeList → List (ℕ × ℕ × ℕ)
  | .nil => []
  | .cons c cs => forgotten_inner s c ++ forgotten_list s cs

end

/-- Structural induction for reflected nodes with the hypothesis available
at every child. -/
def SNode.inductionOn {P : SNode → Prop}
    (step : ∀ (pos ht : ℕ) (pl : Place) (kd : SKind) (ch : Option ℕ)
      (hv fg : ℕ) (children : SNodeList),
      (∀ c ∈ children.toList, P c) →
      P (.mk pos ht pl kd ch hv fg children)) :
    ∀ n, P n :=
  fun n =>
    @SNode.rec P (fun l => ∀ c ∈ l.toList, P c)
      (fun pos ht pl kd ch hv fg children ih =>
        step pos ht pl kd ch hv fg children ih)
      (fun c hc => by simp [SNodeList.toList] at hc)
      (fun c cs ihc ihcs => by
        intro x hx
        simp only [SNodeList.toList, List.mem_cons] at hx
        rcases hx with h | h
        · rw [h]; exact ihc
        · exact ihcs x h)
      n

/-- The per-node emission condition of the hashes stream: the position
reaches the minimum-position threshold, the hash should be kept, the
cached hash is present and is the third component, and the first two
components are the position and height of the node. -/
abbrev emitCond (s : Serializer) (n : SNode) (t : ℕ × ℕ × ℕ) : Prop :=
  s.minPosVal ≤ n.position ∧
  s.should_keep_hash n n.childList.length = true ∧
  n.cachedHash = some t.2.2 ∧ t.1 = n.position ∧ t.2.1 = n.height

/-- Reachability of a node by the hashes (and commitments) traversal: the
traversal starts at the root and passes from a node to its children only
when should_keep_children holds at that node. -/
inductive HKept (s : Serializer) : SNode → SNode → Prop where
  | refl (n : SNode) : HKept s n n
  | child {n c m : SNode} : s.should_keep_children n = true →
      c ∈ n.childList → HKept s c m → HKept s n m

/-- The gate of the forgotten traversal at a node: its position is strictly
below the minimum-position threshold and its stamp strictly exceeds the
last forgotten version. -/
abbrev forgCond (s : Serializer) (n : SNode) : Prop :=
  n.position < s.minPosVal ∧ s.last_forgotten < n.forgottenStamp

/-- Reachability of a node by the forgotten traversal: the traversal starts
at the root and passes from a node to its children only when the gate holds
at that node. -/
inductive FKept (s : Serializer) : SNode → SNode → Prop where
  | refl (n : SNode) : FKept s n n
  | child {n c m : SNode} : forgCond s n →
      c ∈ n.childList → FKept s c m → FKept s n m

/-- A witnessing instance for claim C2: an essential node (complete leaf
with no commitment and no children) at position 5 with cached hash 9 is
emitted by the hashes stream when the minimum position is 0. -/
def c2wNode : SNode := .mk 5 0 Place.complete (SKind.leaf none) (some 9) 9 0 .nil

def c2wSer : Serializer := ⟨⟨true⟩, some 0, 0⟩

/-- A live-structure shape on which the hashes stream of the code emits
nothing although the claim demands triples: the complete internal node
c2exA is worth persisting (keep-internal is on) with position at the
minimum but its hash is not cached, and the essential node c2exL2 with a
cached hash sits under a complete sibling whose range does not contain the
minimum position, so the traversal never reaches it. -/
def c2exL1 : SNode := .mk 0 0 Place.complete (SKind.leaf (some 7)) none 11 0 .nil

def c2exA : SNode := .mk 0 1 Place.complete SKind.internal none 12 0
  (.cons c2exL1 .nil)

def c2exL2 : SNode := .mk 4 0 Place.complete (SKind.leaf none) (some 9) 9 0 .nil

def c2exG : SNode := .mk 4 1 Place.complete SKind.internal none 13 0
  (.cons c2exL2 .nil)

def c2exF : SNode := .mk 8 0 Place.frontier (SKind.leaf (some 8)) none 14 0 .nil

def c2exRoot : SNode := .mk 0 2 Place.frontier SKind.internal none 15 0
  (.cons c2exA (.cons c2exG (.cons c2exF .nil)))

def c2exSer : Serializer := ⟨⟨true⟩, some 0, 0⟩

/-- A live-structure shape refuting claim C5 as stated: the internal node
c5exRoot has position 0, strictly below the minimum position 1, and stamp
5, strictly above the last forgotten version 0, so the claim demands the
triple of c5exRoot itself, with its height 1; but the stream reports only
its childless descendant, so no triple with height 1 appears. -/
def c5exChild : SNode := .mk 0 0 Place.complete (SKind.leaf none) (some 21) 21 5 .nil

def c5exRoot : SNode := .mk 0 1 Place.complete SKind.internal (some 22) 22 5
  (.cons c5exChild .nil)

def c5exSer : Serializer := ⟨⟨true⟩, some 1, 0⟩

/-- A call made by to_writer on the storage writer, in order: the initial
position read, hash insertions, range deletions (height, then the range as
an inclusive lower and exclusive upper bound), and the final position
update. -/
inductive WriteOp : Type where
  | position : WriteOp
  | addHash : ℕ → ℕ → ℕ → WriteOp
  | addCommitment : ℕ → ℕ → WriteOp
  | deleteRange : ℕ → ℕ → ℕ → WriteOp
  | setPosition : Option ℕ → WriteOp
deriving DecidableEq

/-- Whether a writer call is add_commitment. -/
def WriteOp.isAddCommitment : WriteOp → Bool
  | .addCommitment _ _ => true
  | _ => false

/-- to_writer of serialize.rs lines 305 to 342, as the ordered trace of
calls it makes on the writer: read the stored position, emit every triple
of the hashes stream as add_hash, emit every triple of the forgotten
stream as a delete_range whose range runs from the position to the
position plus 4 to the height, clamped by the source to 4 to the 24 minus
one, and finally set the position to the position of the tree. -/
def to_writer (o : Options) (last_forgotten : ℕ) (storedPosition : Option ℕ)
    (root : SNode) (treePosition : Option ℕ) : List WriteOp :=
  let serializer : Serializer := ⟨o, storedPosition, last_forgotten⟩
  WriteOp.position ::
    ((hashes_inner serializer root).map (fun t => WriteOp.addHash t.1 t.2.1 t.2.2)
      ++ (forgotten_inner serializer root).map (fun t =>
          WriteOp.deleteRange t.2.1 t.1 (min (t.1 + 4 ^ t.2.1) (4 ^ 24 - 1)))
      ++ [WriteOp.setPosition treePosition])

/-- The failing input of claim C1: a forgotten, childless node at the last
position of the tree, 4 to the 24 minus one, which is 281474976710655, at
height 0, serialized with no stored minimum position. -/
def c1exNode : SNode :=
  .mk 281474976710655 0 Place.complete (SKind.leaf none) (some 9) 9 1 .nil

/-- Modelled from the spec: the state of the under-construction tree during
deserialization, accumulating the stored position, the out-of-order
commitment insertions, the out-of-order hash assignments, and whether the
final traversal ran.  The unit-returning signature of the final traversal
(the UncheckedSetHash trait in complete/tier.rs lines 100 to 108) means it
can report no error, which is the fact the claims settled here depend on;
its hash recomputation is not otherwise modelled. -/
structure OOTree : Type where
  pos : Option ℕ
  comms : List (ℕ × ℕ)
  hashes : List (ℕ × ℕ × ℕ)
  finalized : Bool

/-- Modelled from the spec: the uninitialized skeleton with the given
position (the uninitialized constructor of the OutOfOrder machinery). -/
def OOTree.uninit (p : Option ℕ) : OOTree := ⟨p, [], [], false⟩

/-- Modelled from the spec: recording one commitment at a position, as
uninitialized_out_of_order_insert_commitment does. -/
def OOTree.insertComm (t : OOTree) (p c : ℕ) : OOTree :=
  ⟨t.pos, t.comms ++ [(p, c)], t.hashes, t.finalized⟩

/-- Modelled from the spec: recording one hash assignment at a position and
height, as unchecked_set_hash does. -/
def OOTree.unchecked_set_hash (t : OOTree) (p h hsh : ℕ) : OOTree :=
  ⟨t.pos, t.comms, t.hashes ++ [(p, h, hsh)], t.finalized⟩

/-- Modelled from the spec: the final traversal recomputing the still
uninitialized hashes; its signature returns unit, so it cannot surface an
error, and the model records only that it ran. -/
def OOTree.finish_init (t : OOTree) : OOTree :=
  ⟨t.pos, t.comms, t.hashes, true⟩

/-- A storage reader, as the data from_reader consumes: the stored position
and the two streams, each streamed item possibly an error of the reader
(the Read trait of the storage module). -/
structure ReaderData (E : Type) : Type where
  position : Except E (Option ℕ)
  commitments : List (Except E (ℕ × ℕ))
  hashes : List (Except E (ℕ × ℕ × ℕ))

/-- The deserialized tree: the commitment index assembled during reading
and the rebuilt structure. -/
structure DTree : Type where
  index : List (ℕ × ℕ)
  inner : OOTree

/-- The commitment-reading loop of from_reader (deserialize.rs lines 21 to
27): drain the stream in order, stopping at the first reader error,
inserting each commitment into the tree and recording it in the index. -/
def readComms {E : Type} : OOTree → List (ℕ × ℕ) →
    List (Except E (ℕ × ℕ)) → Except E (OOTree × List (ℕ × ℕ))
  | inner, index, [] => .ok (inner, index)
  | _, _, .error e :: _ => .error e
  | inner, index, .ok (p, c) :: rest =>
    readComms (inner.insertComm p c) (index ++ [(c, p)]) rest

/-- The hash-reading loop of from_reader (deserialize.rs lines 30 to 33):
drain the stream in order, stopping at the first reader error, setting
each hash in the tree. -/
def readHashes {E : Type} : OOTree → List (Except E (ℕ × ℕ × ℕ)) →
    Except E OOTree
  | inner, [] => .ok inner
  | _, .error e :: _ => .error e
  | inner, .ok (p, h, hsh) :: rest =>
    readHashes (inner.unchecked_set_hash p h hsh) rest

/-- from_reader of deserialize.rs lines 12 to 39: read the position, make
the uninitialized skeleton, drain the commitment stream, drain the hash
stream, run the final traversal, and return the tree; the only error exits
are the question-mark propagations of reader errors. -/
def from_reader {E : Type} (r : ReaderData E) : Except E DTree :=
  match r.position with
  | .error e => .error e
  | .ok p =>
    match readComms (OOTree.uninit p) [] r.commitments with
    | .error e => .error e
    | .ok (inner, index) =>
      match readHashes inner r.hashes with
      | .error e => .error e
      | .ok inner2 => .ok ⟨index, inner2.finish_init⟩

/-- Whether an Except value is the ok variant. -/
def exOk {E α : Type} : Except E α → Bool
  | .ok _ => true
  | .error _ => false

/-- Modelled from the spec: the hash-only boundary nodes of the skeleton
rebuilt for a given frontier position: for each height, the left siblings
of the frontier path, each the root of a maximal pruned subtree, obtained
by replacing the digit of the position at that height with each smaller
digit and zeroing all lower digits (section 4.9, the pruned region left of
the frontier). -/
def boundaries (n : ℕ) : List (ℕ × ℕ) :=
  ((List.range 24).map (fun h =>
    (List.range (n / 4 ^ h % 4)).map (fun j =>
      (n / 4 ^ (h + 1) * 4 ^ (h + 1) + j * 4 ^ h, h)))).flatten

/-- Modelled from the spec: a reader input is corrupt when the skeleton it
describes has a hash-only boundary with no streamed hash for it and no
streamed commitment beneath it: the hash of that node is required but can
not be recomputed (section 4.9 item 3). -/
def ReaderData.corruptInput {E : Type} (r : ReaderData E) : Bool :=
  match r.position with
  | .ok (some n) =>
    (boundaries n).any (fun b =>
      r.hashes.all (fun eh =>
        match eh with
        | .ok (p2, h2, _) => !(decide (p2 = b.1) && decide (h2 = b.2))
        | .error _ => true) &&
      r.commitments.all (fun ec =>
        match ec with
        | .ok (p2, _) => !(decide (b.1 ≤ p2) && decide (p2 < b.1 + 4 ^ b.2))
        | .error _ => true))
  | _ => false

/-- The corrupt reader of the C6 counterexample: storage records position
1, meaning one leaf below the frontier was serialized, but it streams no
commitment and no hash, so the leaf at position 0 is a hash-only boundary
with no commitment, no children, and no stored hash. -/
def c6exReader : ReaderData Unit := ⟨.ok (some 1), [], []⟩

theorem Sibs.length_le_three {d : ℕ} (s : Sibs d) : s.length ≤ 3 := by
  cases s <;> simp [Sibs.length]

theorem Compact.one_le {d : ℕ} {f : FTree d} {k : ℕ} (h : Compact d f k) :
    1 ≤ k := by
  induction h with
  | leaf i => exact le_refl 1
  | node sibs focus k hk hle ih => exact le_trans ih (Nat.le_add_left k _)

theorem Compact.le_capacity {d : ℕ} {f : FTree d} {k : ℕ}
    (h : Compact d f k) : k ≤ 4 ^ d := by
  induction h with
  | leaf i => exact le_refl 1
  | @node d2 sibs focus k hk hle ih =>
    have h3 := Sibs.length_le_three sibs
    have hmul : sibs.length * 4 ^ d2 ≤ 3 * 4 ^ d2 := Nat.mul_le_mul_right _ h3
    have hpow : (4 : ℕ) ^ (d2 + 1) = 4 * 4 ^ d2 := by rw [pow_succ]; ring
    omega

theorem Compact.position_eq {d : ℕ} {f : FTree d} {k : ℕ}
    (h : Compact d f k) :
    FTree.position f = if k < 4 ^ d then some k else none := by
  induction h with
  | leaf i => simp [FTree.position]
  | @node d2 sibs focus k hk hle ih =>
    have h3 := Sibs.length_le_three sibs
    have hpow : (4 : ℕ) ^ (d2 + 1) = 4 * 4 ^ d2 := by rw [pow_succ]; ring
    have hP : 0 < (4 : ℕ) ^ d2 := pow_pos (by norm_num) d2
    have hmul3 : sibs.length * 4 ^ d2 ≤ 3 * 4 ^ d2 := Nat.mul_le_mul_right _ h3
    by_cases hkP : k < 4 ^ d2
    · have hfp : FTree.position focus = some k := by rw [ih, if_pos hkP]
      simp only [FTree.position, hfp]
      rw [if_pos (by omega)]
    · have hkeq : k = 4 ^ d2 := le_antisymm hle (not_lt.mp hkP)
      have hfp : FTree.position focus = none := by rw [ih, if_neg hkP]
      simp only [FTree.position, hfp]
      by_cases hs : sibs.length + 1 < 4
      · have hs2 : sibs.length ≤ 2 := by omega
        have hmul2 : sibs.length * 4 ^ d2 ≤ 2 * 4 ^ d2 :=
          Nat.mul_le_mul_right _ hs2
        have hdistrib : (sibs.length + 1) * 4 ^ d2 =
            sibs.length * 4 ^ d2 + 4 ^ d2 := by ring
        rw [if_pos hs, hkeq, if_pos (by omega), hdistrib]
      · have hs3 : sibs.length = 3 := by omega
        rw [if_neg hs, hkeq, hs3, if_neg (by omega)]

theorem Compact.is_full_iff {d : ℕ} {f : FTree d} {k : ℕ}
    (h : Compact d f k) : FTree.is_full f = true ↔ k = 4 ^ d := by
  induction h with
  | leaf i => simp [FTree.is_full]
  | @node d2 sibs focus k hk hle ih =>
    have h3 := Sibs.length_le_three sibs
    have h1k := hk.one_le
    have hpow : (4 : ℕ) ^ (d2 + 1) = 4 * 4 ^ d2 := by rw [pow_succ]; ring
    have hP : 0 < (4 : ℕ) ^ d2 := pow_pos (by norm_num) d2
    simp only [FTree.is_full, Bool.and_eq_true, decide_eq_true_eq, ih]
    constructor
    · rintro ⟨hs3, hkP⟩
      rw [hs3, hkP]
      omega
    · intro heq
      have h4 : sibs.length = 0 ∨ sibs.length = 1 ∨ sibs.length = 2 ∨
          sibs.length = 3 := by omega
      rcases h4 with h4 | h4 | h4 | h4 <;> rw [h4] at heq <;> omega

theorem FTree.insert_owned_err_of_full {d : ℕ} (f : FTree d) :
    ∀ item : ItemV, f.is_full = true →
      ∃ c, f.insert_owned item = .error (item, c) := by
  induction f with
  | leaf i => exact fun item _ => ⟨_, rfl⟩
  | node d sibs focus ih =>
    intro item hfull
    simp only [FTree.is_full, Bool.and_eq_true, decide_eq_true_eq] at hfull
    obtain ⟨h3, hf⟩ := hfull
    obtain ⟨c, hc⟩ := ih item hf
    cases sibs with
    | zero => simp [Sibs.length] at h3
    | one a => simp [Sibs.length] at h3
    | two a b => simp [Sibs.length] at h3
    | three a b c3 =>
      refine ⟨FTree.finalize_owned (.node d (Sibs.three a b c3) focus), ?_⟩
      simp only [FTree.insert_owned]
      rw [hc]
      rfl

theorem FTree.insert_owned_ok_of_not_full {d : ℕ} (f : FTree d) :
    ∀ item : ItemV, f.is_full = false →
      ∃ f2, f.insert_owned item = .ok f2 := by
  induction f with
  | leaf i => intro item h; simp [FTree.is_full] at h
  | node d sibs focus ih =>
    intro item hnf
    cases hff : focus.is_full with
    | false =>
      obtain ⟨f2, hf2⟩ := ih item hff
      refine ⟨.node d sibs f2, ?_⟩
      simp only [FTree.insert_owned]
      rw [hf2]
    | true =>
      obtain ⟨c, hc⟩ := FTree.insert_owned_err_of_full focus item hff
      have h3 : sibs.length ≠ 3 := by
        intro hcon
        rw [FTree.is_full, hcon, hff] at hnf
        simp at hnf
      cases sibs with
      | zero =>
        refine ⟨.node d (Sibs.one c) (FTree.new d item), ?_⟩
        simp only [FTree.insert_owned]
        rw [hc]
        rfl
      | one a =>
        refine ⟨.node d (Sibs.two a c) (FTree.new d item), ?_⟩
        simp only [FTree.insert_owned]
        rw [hc]
        rfl
      | two a b =>
        refine ⟨.node d (Sibs.three a b c) (FTree.new d item), ?_⟩
        simp only [FTree.insert_owned]
        rw [hc]
        rfl
      | three a b c3 => simp [Sibs.length] at h3

theorem FTree.new_compact (d : ℕ) (item : ItemV) :
    Compact d (FTree.new d item) 1 := by
  induction d with
  | zero => exact Compact.leaf item
  | succ d ih =>
    have h := Compact.node (d := d) .zero (FTree.new d item) 1 ih
      (Nat.one_le_iff_ne_zero.mpr (pow_ne_zero d (by norm_num)))
    simpa [Sibs.length] using h

theorem Compact.insert_owned_ok {d : ℕ} {f : FTree d} {k : ℕ}
    (h : Compact d f k) (item : ItemV) (hlt : k < 4 ^ d) :
    ∃ f2, f.insert_owned item = .ok f2 ∧ Compact d f2 (k + 1) := by
  induction h with
  | leaf i => simp at hlt
  | @node d2 sibs focus k hk hle ih =>
    have h3 := Sibs.length_le_three sibs
    have hpow : (4 : ℕ) ^ (d2 + 1) = 4 * 4 ^ d2 := by rw [pow_succ]; ring
    have hP : 0 < (4 : ℕ) ^ d2 := pow_pos (by norm_num) d2
    by_cases hkP : k < 4 ^ d2
    · obtain ⟨f2, hins, hc2⟩ := ih hkP
      refine ⟨.node d2 sibs f2, ?_, ?_⟩
      · simp only [FTree.insert_owned]
        rw [hins]
      · have hres := Compact.node sibs f2 (k + 1) hc2 (by omega)
        have heq : sibs.length * 4 ^ d2 + (k + 1) =
            sibs.length * 4 ^ d2 + k + 1 := by omega
        rwa [heq] at hres
    · have hkeq : k = 4 ^ d2 := le_antisymm hle (not_lt.mp hkP)
      have hfull : focus.is_full = true := hk.is_full_iff.mpr hkeq
      obtain ⟨c, hc⟩ := FTree.insert_owned_err_of_full focus item hfull
      have hs2 : sibs.length ≤ 2 := by
        by_contra hcon
        have hs3 : sibs.length = 3 := by omega
        rw [hs3, hkeq] at hlt
        omega
      have hnc := FTree.new_compact d2 item
      have h1cap : 1 ≤ (4 : ℕ) ^ d2 := hP
      cases sibs with
      | zero =>
        refine ⟨.node d2 (Sibs.one c) (FTree.new d2 item), ?_, ?_⟩
        · simp only [FTree.insert_owned]
          rw [hc]
          rfl
        · have hres := Compact.node (Sibs.one c) (FTree.new d2 item) 1 hnc h1cap
          simp only [Sibs.length] at hres ⊢
          rw [hkeq]
          have heq : 1 * 4 ^ d2 + 1 = 0 * 4 ^ d2 + 4 ^ d2 + 1 := by ring
          rwa [heq] at hres
      | one a =>
        refine ⟨.node d2 (Sibs.two a c) (FTree.new d2 item), ?_, ?_⟩
        · simp only [FTree.insert_owned]
          rw [hc]
          rfl
        · have hres := Compact.node (Sibs.two a c) (FTree.new d2 item) 1 hnc h1cap
          simp only [Sibs.length] at hres ⊢
          rw [hkeq]
          have heq : 2 * 4 ^ d2 + 1 = 1 * 4 ^ d2 + 4 ^ d2 + 1 := by ring
          rwa [heq] at hres
      | two a b =>
        refine ⟨.node d2 (Sibs.three a b c) (FTree.new d2 item), ?_, ?_⟩
        · simp only [FTree.insert_owned]
          rw [hc]
          rfl
        · have hres := Compact.node (Sibs.three a b c) (FTree.new d2 item) 1 hnc
            h1cap
          simp only [Sibs.length] at hres ⊢
          rw [hkeq]
          have heq : 3 * 4 ^ d2 + 1 = 2 * 4 ^ d2 + 4 ^ d2 + 1 := by ring
          rwa [heq] at hres
      | three a b c3 => simp [Sibs.length] at hs2

theorem tierIter_compact (f : ℕ → ItemV) :
    ∀ k : ℕ, k < 65536 →
      ∃ ft, tierIter f k = ⟨.frontier ft⟩ ∧ Compact 8 ft (k + 1) := by
  intro k
  induction k with
  | zero =>
    exact fun _ => ⟨FTree.new 8 (f 0), rfl, FTree.new_compact 8 (f 0)⟩
  | succ k ih =>
    intro hk
    obtain ⟨ft, hft, hc⟩ := ih (by omega)
    have hcap : (4 : ℕ) ^ 8 = 65536 := by norm_num
    have hlt : k + 1 < 4 ^ 8 := by omega
    obtain ⟨f2, hins, hc2⟩ := hc.insert_owned_ok (f (k + 1)) hlt
    have hnotfull : ft.is_full = false := by
      cases hfull : ft.is_full
      · rfl
      · have := hc.is_full_iff.mp hfull
        omega
    have hstep : Tier.insert ⟨.frontier ft⟩ (f (k + 1)) = .ok ⟨.frontier f2⟩ := by
      simp only [Tier.insert, hnotfull, Bool.false_eq_true, if_false]
      rw [hins]
    refine ⟨f2, ?_, hc2⟩
    simp only [tierIter, tierStep, hft, hstep]

/-- Claim C4: a frontier tier, an 8-deep quad tree, accepts exactly 65536
insertions in total without any sealing call (the seed item of Tier new
plus 65535 successful inserts), and the 65537th insertion fails, returning
the item as an error with the tier unchanged; while in the frontier state
the reported position is one greater than the number of items absorbed so
far, so it strictly increases by one per insertion, and it becomes none
once the tier is full. -/
theorem tct_c4_tier_capacity_position (f : ℕ → ItemV) :
    (∀ k : ℕ, k < 65535 →
      ∃ t2, Tier.insert (tierIter f k) (f (k + 1)) = .ok t2) ∧
    Tier.insert (tierIter f 65535) (f 65536) =
      .err (f 65536) (tierIter f 65535) ∧
    (∀ k : ℕ, k ≤ 65534 → Tier.position (tierIter f k) = some (k + 1)) ∧
    Tier.position (tierIter f 65535) = none := by
  have hcap : (4 : ℕ) ^ 8 = 65536 := by norm_num
  refine ⟨?_, ?_, ?_, ?_⟩
  · intro k hk
    obtain ⟨ft, hft, hc⟩ := tierIter_compact f k (by omega)
    obtain ⟨f2, hins, _⟩ := hc.insert_owned_ok (f (k + 1)) (by omega)
    have hnotfull : ft.is_full = false := by
      cases hfull : ft.is_full
      · rfl
      · have := hc.is_full_iff.mp hfull
        omega
    refine ⟨⟨.frontier f2⟩, ?_⟩
    rw [hft]
    simp only [Tier.insert, hnotfull, Bool.false_eq_true, if_false]
    rw [hins]
  · obtain ⟨ft, hft, hc⟩ := tierIter_compact f 65535 (by omega)
    have hfull : ft.is_full = true := hc.is_full_iff.mpr (by omega)
    rw [hft]
    simp only [Tier.insert, hfull, if_true]
  · intro k hk
    obtain ⟨ft, hft, hc⟩ := tierIter_compact f k (by omega)
    rw [hft]
    simp only [Tier.position]
    rw [hc.position_eq, if_pos (by omega)]
  · obtain ⟨ft, hft, hc⟩ := tierIter_compact f 65535 (by omega)
    rw [hft]
    simp only [Tier.position]
    rw [hc.position_eq, if_neg (by omega)]

theorem tct_c4_witness :
    (∃ t2, Tier.insert (tierIter (fun _ => ItemV.keep 0) 3) (ItemV.keep 0) =
      InsertResult.ok t2) ∧
    Tier.position (tierIter (fun _ => ItemV.keep 0) 2) = some 3 :=
  ⟨(tct_c4_tier_capacity_position (fun _ => ItemV.keep 0)).1 3 (by decide),
    (tct_c4_tier_capacity_position (fun _ => ItemV.keep 0)).2.2.1 2 (by decide)⟩

/-- Claim C3: Tier insert returns an error carrying the item back, with the
tier unchanged, exactly when the tier is a full frontier or is in the
complete or hash state; on a non-full frontier it always succeeds, and in
particular a full frontier tier is never implicitly finalized by insert. -/
theorem tct_c3_tier_insert_err_iff (t : Tier) (item : ItemV) :
    (Tier.insert t item = .err item t ↔
      ((∃ ft, t.inner = .frontier ft ∧ ft.is_full = true) ∨
        t.is_finalized = true)) ∧
    ((∃ ft, t.inner = .frontier ft ∧ ft.is_full = false) →
      ∃ t2, Tier.insert t item = .ok t2) := by
  obtain ⟨inner⟩ := t
  cases inner with
  | frontier ft =>
    constructor
    · cases hfull : ft.is_full
      · apply iff_of_false
        · obtain ⟨f2, hins⟩ := FTree.insert_owned_ok_of_not_full ft item hfull
          simp only [Tier.insert, hfull, Bool.false_eq_true, if_false]
          rw [hins]
          intro hcon
          cases hcon
        · rintro (⟨ft2, hft2, hfull2⟩ | hfin)
          · cases hft2
            rw [hfull] at hfull2
            cases hfull2
          · simp [Tier.is_finalized] at hfin
      · apply iff_of_true
        · simp only [Tier.insert, hfull, if_true]
        · exact Or.inl ⟨ft, rfl, hfull⟩
    · rintro ⟨ft2, hft2, hnf⟩
      cases hft2
      obtain ⟨f2, hins⟩ := FTree.insert_owned_ok_of_not_full ft item hnf
      refine ⟨⟨.frontier f2⟩, ?_⟩
      simp only [Tier.insert, hnf, Bool.false_eq_true, if_false]
      rw [hins]
  | complete c =>
    refine ⟨iff_of_true rfl (Or.inr rfl), ?_⟩
    rintro ⟨ft2, hft2, _⟩
    cases hft2
  | hash h =>
    refine ⟨iff_of_true rfl (Or.inr rfl), ?_⟩
    rintro ⟨ft2, hft2, _⟩
    cases hft2

theorem tct_c3_witness :
    ∃ t2, Tier.insert (Tier.new (ItemV.keep 0)) (ItemV.keep 1) =
      InsertResult.ok t2 :=
  (tct_c3_tier_insert_err_iff (Tier.new (ItemV.keep 0)) (ItemV.keep 1)).2
    ⟨FTree.new 8 (ItemV.keep 0), rfl, by decide⟩

/-- Claim C9: Tier insert is atomic on failure: whenever it returns an
error, the item inside is exactly the item passed in and the tier is
returned unchanged, hence every observable of the tier (position, fullness,
finalization status, and therefore also its hash) is identical to its state
before the call. -/
theorem tct_c9_tier_insert_atomic (t : Tier) (item item2 : ItemV)
    (t2 : Tier) :
    Tier.insert t item = .err item2 t2 →
    item2 = item ∧ t2 = t ∧ Tier.position t2 = Tier.position t ∧
      Tier.is_full t2 = Tier.is_full t ∧
      Tier.is_finalized t2 = Tier.is_finalized t := by
  intro h
  obtain ⟨inner⟩ := t
  have hmain : item2 = item ∧ t2 = Tier.mk inner := by
    cases inner with
    | frontier ft =>
      cases hfull : ft.is_full
      · obtain ⟨f2, hins⟩ := FTree.insert_owned_ok_of_not_full ft item hfull
        simp only [Tier.insert, hfull, Bool.false_eq_true, if_false] at h
        rw [hins] at h
        cases h
      · simp only [Tier.insert, hfull, if_true] at h
        cases h
        exact ⟨rfl, rfl⟩
    | complete c =>
      simp only [Tier.insert] at h
      cases h
      exact ⟨rfl, rfl⟩
    | hash hh =>
      simp only [Tier.insert] at h
      cases h
      exact ⟨rfl, rfl⟩
  obtain ⟨h1, h2⟩ := hmain
  exact ⟨h1, h2, by rw [h2], by rw [h2], by rw [h2]⟩

theorem tct_c9_witness :
    ItemV.keep 7 = ItemV.keep 7 ∧
    Tier.mk (TierInner.hash 0) = Tier.mk (TierInner.hash 0) ∧
    Tier.position (Tier.mk (TierInner.hash 0)) =
      Tier.position (Tier.mk (TierInner.hash 0)) ∧
    Tier.is_full (Tier.mk (TierInner.hash 0)) =
      Tier.is_full (Tier.mk (TierInner.hash 0)) ∧
    Tier.is_finalized (Tier.mk (TierInner.hash 0)) =
      Tier.is_finalized (Tier.mk (TierInner.hash 0)) :=
  tct_c9_tier_insert_atomic ⟨.hash 0⟩ (.keep 7) (.keep 7) ⟨.hash 0⟩ rfl

/-- Claim C7: Tier finalize is idempotent: its boolean result is true
exactly when the tier was already finalized, finalizing twice gives the
same tier as finalizing once, and an already finalized tier is left
unchanged. -/
theorem tct_c7_tier_finalize_idempotent (t : Tier) :
    (Tier.finalize t).1 = Tier.is_finalized t ∧
    (Tier.finalize (Tier.finalize t).2).2 = (Tier.finalize t).2 ∧
    (Tier.is_finalized t = true → (Tier.finalize t).2 = t) := by
  obtain ⟨inner⟩ := t
  cases inner with
  | frontier ft =>
    refine ⟨rfl, ?_, ?_⟩
    · cases hfo : FTree.finalize_owned ft <;>
        simp only [Tier.finalize, hfo]
    · intro hfin
      simp [Tier.is_finalized] at hfin
  | complete c => exact ⟨rfl, rfl, fun _ => rfl⟩
  | hash h => exact ⟨rfl, rfl, fun _ => rfl⟩

theorem tct_c7_witness :
    (Tier.finalize (Tier.mk (TierInner.hash 5))).2 = Tier.mk (TierInner.hash 5) :=
  (tct_c7_tier_finalize_idempotent ⟨.hash 5⟩).2.2 rfl

/-- Claim C8: insertion into a frontier leaf always fails, the returned
Full carries the offered item unchanged together with the finalized form of
the leaf, and a frontier leaf always reports itself full. -/
theorem tct_c8_frontier_leaf_insert_full (i item : ItemV) :
    FTree.insert_owned (FTree.leaf i) item =
      .error (item, FTree.finalize_owned (FTree.leaf i)) ∧
    FTree.is_full (FTree.leaf i) = true :=
  ⟨rfl, rfl⟩

theorem emit_part_mem (s : Serializer) (pos ht : ℕ) (pl : Place)
    (kd : SKind) (ch : Option ℕ) (hv fg : ℕ) (children : SNodeList)
    (t : ℕ × ℕ × ℕ) :
    (t ∈ (if s.minPosVal ≤ pos then
      if s.should_keep_hash (.mk pos ht pl kd ch hv fg children)
          children.toList.length then
        match ch with
        | some hsh => [(pos, ht, hsh)]
        | none => ([] : List (ℕ × ℕ × ℕ))
      else []
    else [])) ↔ emitCond s (.mk pos ht pl kd ch hv fg children) t := by
  obtain ⟨t1, t2, t3⟩ := t
  unfold emitCond
  simp only [SNode.position, SNode.height, SNode.cachedHash, SNode.childList]
  split_ifs with h1 h2
  · cases ch with
    | some hsh =>
      simp only [List.mem_singleton, Prod.mk.injEq, Option.some.injEq]
      constructor
      · rintro ⟨rfl, rfl, rfl⟩
        exact ⟨h1, h2, rfl, rfl, rfl⟩
      · rintro ⟨-, -, h3, h4, h5⟩
        exact ⟨h4, h5, h3.symm⟩
    | none =>
      simp only [List.not_mem_nil, false_iff]
      rintro ⟨-, -, h3, -, -⟩
      cases h3
  · simp only [List.not_mem_nil, false_iff]
    rintro ⟨-, h2x, -, -, -⟩
    exact h2 h2x
  · simp only [List.not_mem_nil, false_iff]
    rintro ⟨h1x, -, -, -, -⟩
    exact h1 h1x

mutual

theorem hashes_inner_mem_aux (s : Serializer) :
    ∀ (n : SNode) (t : ℕ × ℕ × ℕ),
      (t ∈ hashes_inner s n ↔ ∃ m, HKept s n m ∧ emitCond s m t)
  | .mk pos ht pl kd ch hv fg children, t => by
    constructor
    · intro hmem
      simp only [hashes_inner] at hmem
      rcases List.mem_append.mp hmem with hA | hB
      · exact ⟨_, HKept.refl _,
          (emit_part_mem s pos ht pl kd ch hv fg children t).mp hA⟩
      · by_cases hskc :
          s.should_keep_children (.mk pos ht pl kd ch hv fg children) = true
        · rw [if_pos hskc] at hB
          obtain ⟨c, hcmem, m, hk, hcond⟩ :=
            (hashes_list_mem_aux s children t).mp hB
          exact ⟨m, HKept.child hskc (by simpa [SNode.childList] using hcmem)
            hk, hcond⟩
        · rw [if_neg hskc] at hB
          cases hB
    · rintro ⟨m, hk, hcond⟩
      simp only [hashes_inner]
      apply List.mem_append.mpr
      cases hk with
      | refl =>
        exact Or.inl
          ((emit_part_mem s pos ht pl kd ch hv fg children t).mpr hcond)
      | child hskc hcmem hk2 =>
        right
        rw [if_pos hskc]
        exact (hashes_list_mem_aux s children t).mpr
          ⟨_, by simpa [SNode.childList] using hcmem, _, hk2, hcond⟩

theorem hashes_list_mem_aux (s : Serializer) :
    ∀ (l : SNodeList) (t : ℕ × ℕ × ℕ),
      (t ∈ hashes_list s l ↔
        ∃ c ∈ l.toList, ∃ m, HKept s c m ∧ emitCond s m t)
  | .nil, t => by simp [hashes_list, SNodeList.toList]
  | .cons c cs, t => by
    simp only [hashes_list, List.mem_append, SNodeList.toList, List.mem_cons]
    rw [hashes_inner_mem_aux s c t, hashes_list_mem_aux s cs t]
    constructor
    · rintro (h | ⟨c2, hc2, h⟩)
      · exact ⟨c, Or.inl rfl, h⟩
      · exact ⟨c2, Or.inr hc2, h⟩
    · rintro ⟨c2, hc2 | hc2, h⟩
      · exact Or.inl (hc2 ▸ h)
      · exact Or.inr ⟨c2, hc2, h⟩

end

theorem sNodeList_toList_eq_nil {l : SNodeList} (h : l.toList = []) :
    l = .nil := by
  cases l with
  | nil => rfl
  | cons c cs => simp [SNodeList.toList] at h

theorem forgotten_list_mem (s : Serializer) :
    ∀ (l : SNodeList) (t : ℕ × ℕ × ℕ),
      (t ∈ forgotten_list s l ↔ ∃ c ∈ l.toList, t ∈ forgotten_inner s c)
  | .nil, t => by simp [forgotten_list, SNodeList.toList]
  | .cons c cs, t => by
    simp only [forgotten_list, List.mem_append, SNodeList.toList,
      List.mem_cons]
    rw [forgotten_list_mem s cs t]
    constructor
    · rintro (h | ⟨c2, hc2, h⟩)
      · exact ⟨c, Or.inl rfl, h⟩
      · exact ⟨c2, Or.inr hc2, h⟩
    · rintro ⟨c2, hc2 | hc2, h⟩
      · exact Or.inl (hc2 ▸ h)
      · exact Or.inr ⟨c2, hc2, h⟩

theorem forgotten_inner_mem_aux (s : Serializer) (n : SNode) :
    ∀ t : ℕ × ℕ × ℕ,
      (t ∈ forgotten_inner s n ↔
        ∃ m, FKept s n m ∧ forgCond s m ∧ m.childList = [] ∧
          t = (m.position, m.height, m.hashVal)) := by
  induction n using SNode.inductionOn with
  | step pos ht pl kd ch hv fg children ih =>
    intro t
    by_cases hcond : pos < s.minPosVal ∧ s.last_forgotten < fg
    · cases children with
      | nil =>
        constructor
        · intro hmem
          simp only [forgotten_inner] at hmem
          rw [if_pos hcond] at hmem
          simp only [List.mem_singleton] at hmem
          exact ⟨_, FKept.refl _, hcond, rfl, hmem⟩
        · rintro ⟨m, hk, hcond2, hnil, heq⟩
          simp only [forgotten_inner]
          rw [if_pos hcond]
          cases hk with
          | refl =>
            simp only [SNode.position, SNode.height, SNode.hashVal] at heq
            simp [heq]
          | child hcn hcmem hk2 =>
            simp [SNode.childList, SNodeList.toList] at hcmem
      | cons c cs =>
        constructor
        · intro hmem
          simp only [forgotten_inner] at hmem
          rw [if_pos hcond] at hmem
          obtain ⟨c2, hc2, hm⟩ := (forgotten_list_mem s (.cons c cs) t).mp hmem
          obtain ⟨m, hk, hcond2, hnil, heq⟩ := (ih c2 hc2 t).mp hm
          exact ⟨m, FKept.child hcond (by simpa [SNode.childList] using hc2)
            hk, hcond2, hnil, heq⟩
        · rintro ⟨m, hk, hcond2, hnil, heq⟩
          simp only [forgotten_inner]
          rw [if_pos hcond]
          cases hk with
          | refl =>
            simp [SNode.childList, SNodeList.toList] at hnil
          | @child _ c2 _ hcn hcmem hk2 =>
            have hcmem2 : c2 ∈ (SNodeList.cons c cs).toList := by
              simpa [SNode.childList] using hcmem
            exact (forgotten_list_mem s (.cons c cs) t).mpr
              ⟨c2, hcmem2, (ih c2 hcmem2 t).mpr ⟨m, hk2, hcond2, hnil, heq⟩⟩
    · constructor
      · intro hmem
        cases children with
        | nil =>
          simp only [forgotten_inner] at hmem
          rw [if_neg hcond] at hmem
          cases hmem
        | cons c cs =>
          simp only [forgotten_inner] at hmem
          rw [if_neg hcond] at hmem
          cases hmem
      · rintro ⟨m, hk, hcond2, hnil, heq⟩
        cases hk with
        | refl => exact absurd hcond2 hcond
        | child hcn hcmem hk2 => exact absurd hcn hcond

/-- Claim C2 (amended): the hashes stream yields a triple exactly for the
nodes reached by the traversal (descending only through nodes whose range
contains the minimum position) whose position reaches the minimum-position
threshold, whose hash should be kept, and whose hash is currently cached;
in particular a non-essential frontier node never has its hash kept, so no
triple is ever emitted for one. -/
theorem tct_c2_hashes_stream_emission (s : Serializer) (root : SNode)
    (t : ℕ × ℕ × ℕ) :
    (t ∈ hashes_inner s root ↔ ∃ m, HKept s root m ∧ emitCond s m t) ∧
    (∀ n : SNode, n.place = Place.frontier →
      (0 < n.childList.length ∨ ∃ cm, n.kind = SKind.leaf (some cm)) →
      s.should_keep_hash n n.childList.length = false) := by
  refine ⟨hashes_inner_mem_aux s root t, ?_⟩
  intro n hfr hrec
  unfold Serializer.should_keep_hash
  rw [hfr]
  rcases hrec with h | ⟨cm, hkd⟩
  · simp [h]
  · rw [hkd]
    simp

theorem tct_c2_witness :
    ((5 : ℕ), (0 : ℕ), (9 : ℕ)) ∈ hashes_inner c2wSer c2wNode :=
  (tct_c2_hashes_stream_emission c2wSer c2wNode (5, 0, 9)).1.mpr
    ⟨c2wNode, HKept.refl c2wNode, by decide, by decide, rfl, rfl, rfl⟩

theorem tct_c2_counterexample :
    hashes_inner c2exSer c2exRoot = [] ∧
    c2exSer.minPosVal ≤ c2exA.position ∧
    c2exSer.should_keep_hash c2exA c2exA.childList.length = true ∧
    c2exSer.minPosVal ≤ c2exL2.position ∧
    c2exSer.should_keep_hash c2exL2 c2exL2.childList.length = true ∧
    c2exL2.cachedHash = some 9 := by
  refine ⟨?_, by decide, by decide, by decide, by decide, rfl⟩
  rfl

/-- Claim C5 (amended): the forgotten stream yields a triple exactly for
each childless node reached by the forgotten traversal (descending only
through nodes satisfying the gate) that itself satisfies the gate: position
strictly below the minimum-position threshold (the u64 maximum when no
minimum position exists, so every position qualifies) and stamp strictly
above the last forgotten version; a node with children is never itself
reported, only its qualifying descendants are. -/
theorem tct_c5_forgotten_stream_emission (s : Serializer) (root : SNode)
    (t : ℕ × ℕ × ℕ) :
    t ∈ forgotten_inner s root ↔
      ∃ m, FKept s root m ∧ forgCond s m ∧ m.childList = [] ∧
        t = (m.position, m.height, m.hashVal) :=
  forgotten_inner_mem_aux s root t

theorem tct_c5_counterexample :
    c5exRoot.position < c5exSer.minPosVal ∧
    c5exSer.last_forgotten < c5exRoot.forgottenStamp ∧
    forgotten_inner c5exSer c5exRoot = [(0, 0, 21)] ∧
    ((0 : ℕ), (1 : ℕ), (22 : ℕ)) ∉ forgotten_inner c5exSer c5exRoot := by
  refine ⟨by decide, by decide, rfl, ?_⟩
  intro hmem
  rw [show forgotten_inner c5exSer c5exRoot = [(0, 0, 21)] from rfl] at hmem
  simp at hmem

/-- Claim C1, evaluated at the failing input: the code clamps the exclusive
end of the deletion range with 4 to the 24 minus one instead of 4 to the
24, so for the forgotten node at the last position and height 0 it calls
delete_range with the empty range from 281474976710655 to 281474976710655,
although the range demanded by the claim, the interval from position to
position plus 4 to the height intersected with the space of positions
below 4 to the 24, is the nonempty range up to 281474976710656; so the
forgotten node at the last position is never deleted from storage, though
the doc comment of to_writer promises that all forgotten nodes are
deleted. -/
theorem tct_c1_delete_range_clamped :
    to_writer ⟨true⟩ 0 none c1exNode none =
      [WriteOp.position,
        WriteOp.deleteRange 0 281474976710655 281474976710655,
        WriteOp.setPosition none] ∧
    min (281474976710655 + 4 ^ 0) (4 ^ 24) = 281474976710656 := by
  constructor
  · decide
  · decide

/-- Claim C10: a complete run of to_writer performs only position,
add_hash, delete_range and set_position calls on the writer; in particular
it never calls add_commitment, for every option, last forgotten version,
stored position, tree structure and tree position. -/
theorem tct_c10_to_writer_call_kinds (o : Options) (lf : ℕ)
    (sp : Option ℕ) (root : SNode) (tp : Option ℕ) :
    (to_writer o lf sp root tp).all (fun op => !op.isAddCommitment) = true := by
  rw [List.all_eq_true]
  intro op hop
  simp only [to_writer, List.mem_cons, List.mem_append, List.mem_map,
    List.mem_singleton, List.not_mem_nil, or_false] at hop
  rcases hop with rfl | ⟨⟨a, -, rfl⟩ | ⟨a, -, rfl⟩⟩ | rfl <;> rfl

theorem readComms_isOk {E : Type} :
    ∀ (l : List (Except E (ℕ × ℕ))) (inner : OOTree)
      (index : List (ℕ × ℕ)),
      exOk (readComms inner index l) = l.all exOk
  | [], _, _ => rfl
  | .error e :: rest, _, _ => by simp [readComms, exOk]
  | .ok (p, c) :: rest, inner, index => by
    simp only [readComms, List.all_cons]
    rw [readComms_isOk rest]
    simp [exOk]

theorem readHashes_isOk {E : Type} :
    ∀ (l : List (Except E (ℕ × ℕ × ℕ))) (inner : OOTree),
      exOk (readHashes inner l) = l.all exOk
  | [], _ => rfl
  | .error e :: rest, _ => by simp [readHashes, exOk]
  | .ok (p, h, hsh) :: rest, inner => by
    simp only [readHashes, List.all_cons]
    rw [readHashes_isOk rest]
    simp [exOk]

/-- Claim C6 (amended): from_reader surfaces only the errors of the reader
itself: it returns ok exactly when the position read and every streamed
commitment and hash item are ok; the final traversal returns no error, so
a corrupt input, one with a required hash that is missing and cannot be
recomputed, does not prevent from_reader from returning a tree, and no
Corrupt error reaches the caller. -/
theorem tct_c6_from_reader_errors {E : Type} (r : ReaderData E) :
    exOk (from_reader r) =
      (exOk r.position && r.commitments.all exOk && r.hashes.all exOk) := by
  obtain ⟨rp, rc, rh⟩ := r
  cases rp with
  | error e => rfl
  | ok p =>
    simp only [from_reader]
    have hcall := readComms_isOk (E := E) rc (OOTree.uninit p) []
    cases hc : readComms (OOTree.uninit p) ([] : List (ℕ × ℕ)) rc with
    | error e =>
      rw [hc] at hcall
      simp only [exOk] at hcall ⊢
      rw [← hcall]
      simp
    | ok pr =>
      rw [hc] at hcall
      simp only [exOk] at hcall
      obtain ⟨inner2, index2⟩ := pr
      have hhall := readHashes_isOk (E := E) rh inner2
      cases hh : readHashes inner2 rh with
      | error e =>
        rw [hh] at hhall
        simp only [exOk] at hhall
        simp [hh, exOk, ← hcall, ← hhall]
      | ok inner3 =>
        rw [hh] at hhall
        simp only [exOk] at hhall
        simp [hh, exOk, ← hcall, ← hhall]

/-- The counterexample to claim C6 as stated: on a corrupt input, one
holding a node whose hash is required but missing and not recomputable,
from_reader still returns ok with a tree instead of surfacing a Corrupt
error; indeed its error type is the error type of the reader, and the
final traversal it calls returns unit. -/
theorem tct_c6_counterexample :
    ReaderData.corruptInput c6exReader = true ∧
    exOk (from_reader c6exReader) = true := by
  constructor
  · decide
  · rfl
